import Mathlib

/-!
Verification of the mystl dynamic array and binary-heap algorithm family.

The development shallowly embeds the heap algorithms of
src/include/algorithm/{make_heap,push_heap,pop_heap,sort_heap,is_heap}.hpp
and the storage-level behaviour of src/include/vector.hpp, plus the
priority_queue adaptor of src/include/priority_queue.hpp.

Modelling conventions:
- a random-access range [first, last) is a function f : Nat -> alpha together
  with a length len : Nat; iterator arithmetic (first + i) becomes plain index
  arithmetic on Nat, exactly as the C++ code computes difference_type offsets;
- the comparison functor is a Bool-valued binary function comp;
- the vector's storage is a function Nat -> Option alpha: a slot holding
  some v is a constructed object, a slot holding none is allocated raw
  memory.  allocator::construct writes some v, allocator::destroy writes
  none, so object lifetime is tracked exactly;
- exceptions become Except values carrying the C++ exception type thrown
  (std::out_of_range vs std::length_error).
-/

namespace mystl

/-- Write through an index: the mathematical effect of assigning slot i of a
range modelled as a function. -/
def setF {α : Type} (f : Nat → α) (i : Nat) (v : α) : Nat → α :=
  fun k => if k = i then v else f k

/-- Effect of std::iter_swap (first + i) (first + j) on the range contents. -/
def swapF {α : Type} (f : Nat → α) (i j : Nat) : Nat → α :=
  fun k => if k = i then f j else if k = j then f i else f k

/-- Contents of the range [first, first + len) as a list. -/
def listOf {α : Type} (f : Nat → α) (len : Nat) : List α :=
  (List.range len).map f

/-- Selection of largestIdx in one iteration of the while loop of
mystl::__heapify (src/include/algorithm/pop_heap.hpp, lines 40-54): largestIdx
starts at parentIdx, is replaced by leftIdx = 2*parentIdx+1 when that child
exists and compares greater, then by rightIdx = 2*parentIdx+2 under the same
test against the updated largestIdx. -/
def chooseLargest {α : Type} (comp : α → α → Bool) (f : Nat → α)
    (len parentIdx : Nat) : Nat :=
  let leftIdx := 2 * parentIdx + 1
  let rightIdx := 2 * parentIdx + 2
  let largestIdx := if leftIdx < len && comp (f parentIdx) (f leftIdx) then leftIdx else parentIdx
  if rightIdx < len && comp (f largestIdx) (f rightIdx) then rightIdx else largestIdx

/-- While loop of mystl::__heapify (src/include/algorithm/pop_heap.hpp,
lines 40-63): if the largest of parent and existing children is not the
parent, swap them and continue from the child position, else stop. -/
def heapifyLoop {α : Type} (comp : α → α → Bool) (len : Nat) (f : Nat → α)
    (parentIdx : Nat) : Nat → α :=
  let largestIdx := chooseLargest comp f len parentIdx
  if h : largestIdx ≠ parentIdx then
    heapifyLoop comp len (swapF f parentIdx largestIdx) largestIdx
  else
    f
termination_by len - parentIdx
decreasing_by
  have h' : chooseLargest comp f len parentIdx ≠ parentIdx := h
  have hc : chooseLargest comp f len parentIdx = parentIdx ∨
      (parentIdx < chooseLargest comp f len parentIdx ∧
        chooseLargest comp f len parentIdx < len) := by
    simp only [chooseLargest]
    by_cases hl : (decide (2 * parentIdx + 1 < len) && comp (f parentIdx) (f (2 * parentIdx + 1))) = true
    · rw [if_pos hl]
      rw [Bool.and_eq_true, decide_eq_true_eq] at hl
      by_cases hr : (decide (2 * parentIdx + 2 < len) && comp (f (2 * parentIdx + 1)) (f (2 * parentIdx + 2))) = true
      · rw [if_pos hr]; rw [Bool.and_eq_true, decide_eq_true_eq] at hr; right; omega
      · rw [if_neg hr]; right; omega
    · rw [if_neg hl]
      by_cases hr : (decide (2 * parentIdx + 2 < len) && comp (f parentIdx) (f (2 * parentIdx + 2))) = true
      · rw [if_pos hr]; rw [Bool.and_eq_true, decide_eq_true_eq] at hr; right; omega
      · rw [if_neg hr]; left; rfl
  show len - chooseLargest comp f len parentIdx < len - parentIdx
  rcases hc with hc | hc
  · exact absurd hc h'
  · omega

/-- mystl::__heapify (src/include/algorithm/pop_heap.hpp, lines 29-64), with
parentIdx initialised to start - first. -/
def __heapify {α : Type} (comp : α → α → Bool) (len : Nat) (f : Nat → α)
    (start : Nat) : Nat → α :=
  heapifyLoop comp len f start

/-- For loop of mystl::make_heap running the starting index from its initial
value down to 0 inclusive, calling __heapify at each index
(src/include/algorithm/make_heap.hpp, line 41-43). -/
def make_heapLoop {α : Type} (comp : α → α → Bool) (len : Nat) :
    (Nat → α) → Nat → (Nat → α)
  | f, 0 => __heapify comp len f 0
  | f, s + 1 => make_heapLoop comp len (__heapify comp len f (s + 1)) s

/-- mystl::make_heap (src/include/algorithm/make_heap.hpp, lines 30-44):
return unchanged when len <= 1, else sift down from start = len/2 - 1 down
to 0. -/
def make_heap {α : Type} (comp : α → α → Bool) (f : Nat → α) (len : Nat) :
    Nat → α :=
  if len ≤ 1 then f
  else make_heapLoop comp len f (len / 2 - 1)

/-- For loop of mystl::is_heap (src/include/algorithm/is_heap.hpp,
lines 47-52): scan idx upward, returning false at the first element comparing
greater than its parent at (idx-1)/2. -/
def is_heapLoop {α : Type} (comp : α → α → Bool) (f : Nat → α)
    (len idx : Nat) : Bool :=
  if idx < len then
    if comp (f ((idx - 1) / 2)) (f idx) then false
    else is_heapLoop comp f len (idx + 1)
  else
    true
termination_by len - idx

/-- mystl::is_heap (src/include/algorithm/is_heap.hpp, lines 36-54). -/
def is_heap {α : Type} (comp : α → α → Bool) (f : Nat → α) (len : Nat) : Bool :=
  if len = 1 then true
  else is_heapLoop comp f len 1

/-- While loop of mystl::push_heap (src/include/algorithm/push_heap.hpp,
lines 47-54): sift the element at childIdx up while it compares greater than
its parent.  In the source parentIdx = (childIdx - 1) / 2 is signed C++
division, which agrees with Nat subtraction-then-division for every value the
loop guard lets through. -/
def push_heapLoop {α : Type} (comp : α → α → Bool) (f : Nat → α)
    (childIdx : Nat) : Nat → α :=
  let parentIdx := (childIdx - 1) / 2
  if childIdx > 0 && comp (f parentIdx) (f childIdx) then
    push_heapLoop comp (swapF f parentIdx childIdx) parentIdx
  else
    f
termination_by childIdx
decreasing_by rw [Bool.and_eq_true, decide_eq_true_eq] at *; omega

/-- mystl::push_heap (src/include/algorithm/push_heap.hpp, lines 32-55):
no-op when len <= 1, else sift up from childIdx = len - 1. -/
def push_heap {α : Type} (comp : α → α → Bool) (f : Nat → α) (len : Nat) :
    Nat → α :=
  if len ≤ 1 then f
  else push_heapLoop comp f (len - 1)

/-- mystl::pop_heap (src/include/algorithm/pop_heap.hpp, lines 82-97): no-op
when len <= 1, else swap the root with the last element and restore the heap
property on the shortened range [first, last - 1) by __heapify from the
root. -/
def pop_heap {α : Type} (comp : α → α → Bool) (f : Nat → α) (len : Nat) :
    Nat → α :=
  if len ≤ 1 then f
  else __heapify comp (len - 1) (swapF f 0 (len - 1)) 0

/-- While loop of mystl::sort_heap (src/include/algorithm/sort_heap.hpp,
lines 41-42): pop_heap on the current range, then shrink it by one, until the
range is empty (last == first). -/
def sort_heapLoop {α : Type} (comp : α → α → Bool) :
    (Nat → α) → Nat → (Nat → α)
  | f, 0 => f
  | f, n + 1 => sort_heapLoop comp (pop_heap comp f (n + 1)) n

/-- mystl::sort_heap (src/include/algorithm/sort_heap.hpp, lines 34-43). -/
def sort_heap {α : Type} (comp : α → α → Bool) (f : Nat → α) (len : Nat) :
    Nat → α :=
  if len ≤ 1 then f
  else sort_heapLoop comp f len

/-- Heap contract of the spec over indices whose parent index is at least
start: for every child c in [1, len) with start <= (c-1)/2, the parent does
not compare less than the child.  HeapFrom comp f len 0 is the full heap
property that mystl::is_heap decides. -/
def HeapFrom {α : Type} (comp : α → α → Bool) (f : Nat → α)
    (len start : Nat) : Prop :=
  ∀ c, c < len → 0 < c → start ≤ (c - 1) / 2 → comp (f ((c - 1) / 2)) (f c) = false

/-- Heap property of the whole range [first, first + len). -/
def IsHeap {α : Type} (comp : α → α → Bool) (f : Nat → α) (len : Nat) : Prop :=
  ∀ c, c < len → 0 < c → comp (f ((c - 1) / 2)) (f c) = false

/-- Asymmetry law of a strict weak ordering, the first half of the C++
Compare requirement the heap algorithms assume of a supported comparator. -/
def Asymm {α : Type} (comp : α → α → Bool) : Prop :=
  ∀ a b, comp a b = true → comp b a = false

/-- Splitting law of a strict weak ordering: whenever a < b, any third value
c satisfies a < c or c < b.  Together with Asymm this is equivalent to comp
being a strict weak ordering (transitive and negatively transitive). -/
def CompSplit {α : Type} (comp : α → α → Bool) : Prop :=
  ∀ a b c, comp a b = true → comp a c = true ∨ comp c b = true

/-- Appending each element of a list with the container's append (construct
into slot len) followed by mystl::push_heap on the grown range, starting from
contents f with len live elements; returns the final contents and length. -/
def pushAllLoop {α : Type} (comp : α → α → Bool) :
    (Nat → α) → Nat → List α → (Nat → α) × Nat
  | f, len, [] => (f, len)
  | f, len, x :: xs => pushAllLoop comp (push_heap comp (setF f len x) (len + 1)) (len + 1) xs

/-- Repeated extraction: mystl::pop_heap on [0, n), read the popped value
from the last slot (index n - 1), then shrink the range by one (the
container's pop_back), until the range is empty.  Returns the popped values
in order. -/
def popAllLoop {α : Type} (comp : α → α → Bool) :
    (Nat → α) → Nat → List α
  | _, 0 => []
  | f, n + 1 =>
    let g := pop_heap comp f (n + 1)
    g n :: popAllLoop comp g n

/-- Exception type thrown by a mystl::vector operation: std::out_of_range
(checked access, erase position validation) or std::length_error
(pop_back on an empty vector). -/
inductive VecError : Type where
  | out_of_range : VecError
  | length_error : VecError
deriving DecidableEq

/-- State of a mystl::vector (src/include/vector.hpp, lines 689-693): the
live count m_size, the allocated slot count m_capacity, and the storage
block p_elem.  Slot i holds some v when an object is constructed there and
none when the slot is raw (unconstructed) memory; slots at or beyond
m_capacity are not allocated and are likewise mapped to none. -/
structure Vec (α : Type) where
  m_size : Nat
  m_capacity : Nat
  p_elem : Nat → Option α

/-- Constant mystl::vector::DEFAULT_CAPACITY (src/include/vector.hpp,
line 56). -/
def DEFAULT_CAPACITY : Nat := 10

/-- Constant mystl::vector::REALLOC_RATE (src/include/vector.hpp, line 57). -/
def REALLOC_RATE : Nat := 2

/-- mystl::vector::realloc (src/include/vector.hpp, lines 656-672): allocate
a new block of newCapacity raw slots, move-construct the first
elemNum = min(m_size, newCapacity) live elements into it and destroy the
originals, release the old block, and take over the new block with
m_size = elemNum and m_capacity = newCapacity. -/
def Vec.realloc {α : Type} (s : Vec α) (newCapacity : Nat) : Vec α :=
  let elemNum := if newCapacity > s.m_size then s.m_size else newCapacity
  { m_size := elemNum
    m_capacity := newCapacity
    p_elem := fun i => if i < elemNum then s.p_elem i else none }

/-- Default constructor of mystl::vector (src/include/vector.hpp,
lines 124-129): start with size 0, capacity 0 and no storage, then
realloc(DEFAULT_CAPACITY). -/
def Vec.mk_default {α : Type} : Vec α :=
  Vec.realloc { m_size := 0, m_capacity := 0, p_elem := fun _ => none } DEFAULT_CAPACITY

/-- Construction from a braced list of values (src/include/vector.hpp,
lines 216-225): size = capacity = list length, each element copy-constructed
in order. -/
def Vec.of_list {α : Type} (l : List α) : Vec α :=
  { m_size := l.length, m_capacity := l.length, p_elem := fun i => l[i]? }

/-- mystl::vector::push_back (src/include/vector.hpp, lines 569-585): when
m_size >= m_capacity first realloc to REALLOC_RATE * m_capacity (1 when the
capacity is 0), then construct the value into slot m_size and increment
m_size. -/
def Vec.push_back {α : Type} (s : Vec α) (value : α) : Vec α :=
  let s := if s.m_size ≥ s.m_capacity then
    s.realloc (if s.m_capacity = 0 then 1 else REALLOC_RATE * s.m_capacity)
  else s
  { m_size := s.m_size + 1
    m_capacity := s.m_capacity
    p_elem := setF s.p_elem s.m_size (some value) }

/-- mystl::vector::pop_back (src/include/vector.hpp, lines 603-611): when
m_size > 0 call allocator destroy on p_elem + m_size and decrement m_size,
else throw std::length_error.  Note the destroyed slot is index m_size
exactly as written in the source, one past the last live element. -/
def Vec.pop_back {α : Type} (s : Vec α) : Except VecError (Vec α) :=
  if s.m_size > 0 then
    .ok { m_size := s.m_size - 1
          m_capacity := s.m_capacity
          p_elem := setF s.p_elem s.m_size none }
  else
    .error .length_error

/-- mystl::vector::front (src/include/vector.hpp, lines 330-334): throw
std::out_of_range when empty, else return the element in slot 0. -/
def Vec.front {α : Type} (s : Vec α) : Except VecError (Option α) :=
  if s.m_size = 0 then .error .out_of_range
  else .ok (s.p_elem 0)

/-- mystl::vector::back (src/include/vector.hpp, lines 352-356): throw
std::out_of_range when empty, else return the element in slot m_size - 1. -/
def Vec.back {α : Type} (s : Vec α) : Except VecError (Option α) :=
  if s.m_size = 0 then .error .out_of_range
  else .ok (s.p_elem (s.m_size - 1))

/-- mystl::vector::at (src/include/vector.hpp, lines 313-317): checked
access, throwing std::out_of_range when pos >= m_size. -/
def Vec.at_pos {α : Type} (s : Vec α) (pos : Nat) : Except VecError (Option α) :=
  if pos ≥ s.m_size then .error .out_of_range
  else .ok (s.p_elem pos)

/-- Move loop of the single-position mystl::vector::erase
(src/include/vector.hpp, lines 461-464): starting at the erased index,
move-assign each element one slot to the left while it + 1 differs from the
end index; returns the final storage and the final value of it.  Every call
the source performs has it < msize, where the != guard coincides with <;
with msize = 0 the source loop runs off the end (undefined behaviour) and
the model stops immediately. -/
def eraseShiftLoop {α : Type} (f : Nat → Option α) (msize it : Nat) :
    (Nat → Option α) × Nat :=
  if it + 1 < msize then
    eraseShiftLoop (setF f it (f (it + 1))) msize (it + 1)
  else
    (f, it)
termination_by msize - it

/-- mystl::vector::erase, single-position overload (src/include/vector.hpp,
lines 451-472).  The argument pos is the signed offset pos - cbegin() of the
iterator from the start of the vector.  The source guard reads
pos < cbegin() || pos > cbegin(), so the model throws exactly when that
offset is nonzero; afterwards it left-shifts the tail over the gap, destroys
the slot the loop stopped at, and decrements m_size. -/
def Vec.erase {α : Type} (s : Vec α) (pos : Int) : Except VecError (Vec α) :=
  if pos < 0 || pos > 0 then .error .out_of_range
  else
    let r := eraseShiftLoop s.p_elem s.m_size pos.toNat
    .ok { m_size := s.m_size - 1
          m_capacity := s.m_capacity
          p_elem := setF r.1 r.2 none }

/-- State invariant of the dynarray: size bounded by capacity, slots
[0, size) constructed, and slots at or beyond size unconstructed. -/
def Vec.WF {α : Type} (s : Vec α) : Prop :=
  s.m_size ≤ s.m_capacity ∧
  (∀ i, i < s.m_size → (s.p_elem i).isSome = true) ∧
  (∀ i, s.m_size ≤ i → s.p_elem i = none)

/-- Live contents of the dynarray, slot by slot. -/
def Vec.contents {α : Type} [Inhabited α] (s : Vec α) : Nat → α :=
  fun i => (s.p_elem i).getD default

/-- Constructor mystl::priority_queue(comp, container)
(src/include/priority_queue.hpp, lines 64-68): copy the container's contents
(given as values f with length len) and call mystl::make_heap on the full
range.  The result is the underlying container's contents and length. -/
def priority_queue_ctor {α : Type} (comp : α → α → Bool) (f : Nat → α)
    (len : Nat) : (Nat → α) × Nat :=
  (make_heap comp f len, len)

/-- mystl::priority_queue::push (src/include/priority_queue.hpp,
lines 175-178): m_container.push_back(value) appends the value (slot len of
the contents), then mystl::push_heap runs on the grown range.
mystl::priority_queue::emplace (lines 199-203) performs the same contents
transformation via emplace_back. -/
def priority_queue_push {α : Type} (comp : α → α → Bool)
    (s : (Nat → α) × Nat) (value : α) : (Nat → α) × Nat :=
  (push_heap comp (setF s.1 s.2 value) (s.2 + 1), s.2 + 1)

/-- mystl::priority_queue::pop (src/include/priority_queue.hpp,
lines 209-212): mystl::pop_heap on the full range, then
m_container.pop_back(), which shrinks the live range by one or throws
std::length_error when the container is empty. -/
def priority_queue_pop {α : Type} (comp : α → α → Bool)
    (s : (Nat → α) × Nat) : Except VecError ((Nat → α) × Nat) :=
  let f := pop_heap comp s.1 s.2
  if s.2 > 0 then .ok (f, s.2 - 1) else .error .length_error

/-- Comparator of the default specialisations: std::less on Int. -/
def intLt : Int → Int → Bool := fun a b => decide (a < b)

/-- A comparison predicate in the literal sense (a binary Bool-valued
function) that is not a strict weak ordering: it holds everywhere. -/
def compTrue : Int → Int → Bool := fun _ _ => true

/-- A comparison predicate that relates 1 and 2 symmetrically and nothing
else; it violates asymmetry but still admits heaps. -/
def compSym : Int → Int → Bool := fun a b =>
  (a == 1 && b == 2) || (a == 2 && b == 1)

/-- Two-element range holding 0 twice. -/
def f02 : Nat → Int := fun _ => 0

/-- Three-element range holding 0, 1, 2. -/
def f012 : Nat → Int := fun i => if i = 0 then 0 else if i = 1 then 1 else 2

/-- Three-element range holding 3, 2, 1 (already a max heap under intLt). -/
def f321 : Nat → Int := fun i => if i = 0 then 3 else if i = 1 then 2 else 1

/-- Three-element range holding 5, 7, 7: both children beat the parent and
the two children tie. -/
def f577 : Nat → Int := fun i => if i = 0 then 5 else 7

/-- End-to-end scenario, step 1: push_back the values 74, -42, 48, -44, 14
onto a default-constructed vector. -/
def vec9 : Vec Int :=
  ([74, -42, 48, -44, 14] : List Int).foldl Vec.push_back Vec.mk_default

/-- End-to-end scenario, step 2: contents of that vector as a range. -/
def f9 : Nat → Int := Vec.contents vec9

/-- End-to-end scenario, step 3: mystl::make_heap over the full range with
the default comparator. -/
def h9 : Nat → Int := make_heap intLt f9 5

/-! Laws derived from the strict-weak-order axioms of a supported
comparator. -/

theorem comp_irrefl {α : Type} {comp : α → α → Bool} (ha : Asymm comp)
    (a : α) : comp a a = false := by
  by_contra h
  rw [Bool.not_eq_false] at h
  have h2 := ha a a h
  rw [h] at h2
  exact Bool.noConfusion h2

theorem comp_trans {α : Type} {comp : α → α → Bool} (ha : Asymm comp)
    (hs : CompSplit comp) {a b c : α} (h1 : comp a b = true)
    (h2 : comp b c = true) : comp a c = true := by
  rcases hs a b c h1 with h | h
  · exact h
  · rw [ha b c h2] at h
    exact absurd h Bool.false_ne_true

theorem comp_neg_trans {α : Type} {comp : α → α → Bool} (hs : CompSplit comp)
    {a b c : α} (h1 : comp a b = false) (h2 : comp b c = false) :
    comp a c = false := by
  by_contra h
  rw [Bool.not_eq_false] at h
  rcases hs a c b h with h' | h'
  · rw [h1] at h'; exact absurd h' Bool.false_ne_true
  · rw [h2] at h'; exact absurd h' Bool.false_ne_true

/-! Pointwise behaviour of setF and swapF. -/

theorem setF_same {α : Type} (f : Nat → α) (i : Nat) (v : α) :
    setF f i v i = v := by
  simp [setF]

theorem setF_other {α : Type} (f : Nat → α) (i : Nat) (v : α) {k : Nat}
    (h : k ≠ i) : setF f i v k = f k := by
  simp [setF, h]

theorem swapF_fst {α : Type} (f : Nat → α) (i j : Nat) : swapF f i j i = f j := by
  simp [swapF]

theorem swapF_snd {α : Type} (f : Nat → α) (i j : Nat) : swapF f i j j = f i := by
  by_cases h : j = i
  · subst h; simp [swapF]
  · simp [swapF, h]

theorem swapF_other {α : Type} (f : Nat → α) (i j k : Nat)
    (hki : k ≠ i) (hkj : k ≠ j) : swapF f i j k = f k := by
  simp [swapF, hki, hkj]

theorem swapF_eq_setF {α : Type} (f : Nat → α) (i j : Nat) :
    swapF f i j = setF (setF f i (f j)) j (f i) := by
  funext k
  by_cases hkj : k = j
  · subst hkj
    rw [swapF_snd, setF_same]
  · by_cases hki : k = i
    · subst hki
      rw [swapF_fst, setF_other _ _ _ hkj, setF_same]
    · rw [swapF_other f i j k hki hkj, setF_other _ _ _ hkj, setF_other _ _ _ hki]

/-! Contents of a range as a list. -/

theorem listOf_length {α : Type} (f : Nat → α) (len : Nat) :
    (listOf f len).length = len := by
  simp [listOf]

theorem listOf_getElem {α : Type} (f : Nat → α) (len i : Nat)
    (h : i < (listOf f len).length) : (listOf f len)[i] = f i := by
  simp [listOf]

theorem listOf_succ {α : Type} (f : Nat → α) (n : Nat) :
    listOf f (n + 1) = listOf f n ++ [f n] := by
  simp [listOf, List.range_succ]

theorem mem_listOf {α : Type} {f : Nat → α} {len : Nat} {a : α} :
    a ∈ listOf f len ↔ ∃ i, i < len ∧ f i = a := by
  simp [listOf]

theorem listOf_setF {α : Type} (f : Nat → α) (len i : Nat) (v : α) :
    listOf (setF f i v) len = (listOf f len).set i v := by
  apply List.ext_getElem
  · simp [listOf_length]
  · intro n h1 h2
    rw [listOf_getElem, List.getElem_set]
    by_cases h : i = n
    · subst h; rw [setF_same, if_pos rfl]
    · rw [if_neg h, setF_other _ _ _ (fun hc => h hc.symm), listOf_getElem]

theorem listOf_congr {α : Type} {f g : Nat → α} {len : Nat}
    (h : ∀ i, i < len → f i = g i) : listOf f len = listOf g len := by
  apply List.ext_getElem
  · simp [listOf_length]
  · intro n h1 h2
    rw [listOf_getElem, listOf_getElem]
    exact h n (by simpa [listOf_length] using h1)

/-! Swapping two entries of a list is a permutation. -/

theorem set_self_eq {α : Type} (l : List α) (i : Nat) (h : i < l.length) :
    l.set i l[i] = l := by
  apply List.ext_getElem
  · simp
  · intro n h1 h2
    rw [List.getElem_set]
    by_cases hin : i = n
    · subst hin; simp
    · rw [if_neg hin]

theorem perm_cons_set {α : Type} :
    ∀ (t : List α) (m : Nat) (a : α) (h : m < t.length),
      List.Perm (t[m] :: t.set m a) (a :: t)
  | b :: t', 0, a, _ => by
      simpa using List.Perm.swap a b t'
  | b :: t', m + 1, a, h => by
      have hm : m < t'.length := by simpa using h
      have s1 := List.Perm.swap b (t'.get ⟨m, hm⟩) (t'.set m a)
      have s2 := (perm_cons_set t' m a hm).cons b
      have s3 := List.Perm.swap a b t'
      simpa using (s1.trans s2).trans s3

theorem perm_set_swap {α : Type} :
    ∀ (l : List α) (i j : Nat) (hi : i < l.length) (hj : j < l.length),
      List.Perm ((l.set i l[j]).set j l[i]) l
  | x :: t, 0, 0, _, _ => by simp
  | x :: t, 0, m + 1, hi, hj => by
      have hm : m < t.length := by simpa using hj
      simpa using perm_cons_set t m x hm
  | x :: t, k + 1, 0, hi, hj => by
      have hk : k < t.length := by simpa using hi
      simpa using perm_cons_set t k x hk
  | x :: t, k + 1, m + 1, hi, hj => by
      have hk : k < t.length := by simpa using hi
      have hm : m < t.length := by simpa using hj
      simpa using (perm_set_swap t k m hk hm).cons x

theorem listOf_swapF_perm {α : Type} (f : Nat → α) (len i j : Nat)
    (hi : i < len) (hj : j < len) :
    List.Perm (listOf (swapF f i j) len) (listOf f len) := by
  have hi' : i < (listOf f len).length := by rw [listOf_length]; exact hi
  have hj' : j < (listOf f len).length := by rw [listOf_length]; exact hj
  rw [swapF_eq_setF, listOf_setF, listOf_setF, ← listOf_getElem f len j hj',
    ← listOf_getElem f len i hi']
  exact perm_set_swap (listOf f len) i j hi' hj'

/-! Case analysis of the largestIdx selection inside __heapify. -/

theorem chooseLargest_destruct {α : Type} (comp : α → α → Bool) (f : Nat → α)
    (len p : Nat) :
    (chooseLargest comp f len p = p ∧
      (2 * p + 1 < len → comp (f p) (f (2 * p + 1)) = false) ∧
      (2 * p + 2 < len → comp (f p) (f (2 * p + 2)) = false)) ∨
    (chooseLargest comp f len p = 2 * p + 1 ∧ 2 * p + 1 < len ∧
      comp (f p) (f (2 * p + 1)) = true ∧
      (2 * p + 2 < len → comp (f (2 * p + 1)) (f (2 * p + 2)) = false)) ∨
    (chooseLargest comp f len p = 2 * p + 2 ∧ 2 * p + 2 < len ∧
      ((2 * p + 1 < len ∧ comp (f p) (f (2 * p + 1)) = true ∧
          comp (f (2 * p + 1)) (f (2 * p + 2)) = true) ∨
        ((2 * p + 1 < len → comp (f p) (f (2 * p + 1)) = false) ∧
          comp (f p) (f (2 * p + 2)) = true))) := by
  simp only [chooseLargest]
  by_cases hl : (decide (2 * p + 1 < len) && comp (f p) (f (2 * p + 1))) = true
  · rw [if_pos hl]
    rw [Bool.and_eq_true, decide_eq_true_eq] at hl
    by_cases hr : (decide (2 * p + 2 < len) && comp (f (2 * p + 1)) (f (2 * p + 2))) = true
    · rw [if_pos hr]
      rw [Bool.and_eq_true, decide_eq_true_eq] at hr
      exact Or.inr (Or.inr ⟨rfl, hr.1, Or.inl ⟨hl.1, hl.2, hr.2⟩⟩)
    · rw [if_neg hr]
      rw [Bool.and_eq_true, decide_eq_true_eq, not_and_or] at hr
      refine Or.inr (Or.inl ⟨rfl, hl.1, hl.2, fun h2 => ?_⟩)
      rcases hr with h | h
      · exact absurd h2 h
      · exact Bool.not_eq_true _ ▸ (Bool.eq_false_iff.mpr h)
  · rw [if_neg hl]
    rw [Bool.and_eq_true, decide_eq_true_eq, not_and_or] at hl
    have hl' : 2 * p + 1 < len → comp (f p) (f (2 * p + 1)) = false := by
      intro h2
      rcases hl with h | h
      · exact absurd h2 h
      · exact Bool.eq_false_iff.mpr h
    by_cases hr : (decide (2 * p + 2 < len) && comp (f p) (f (2 * p + 2))) = true
    · rw [if_pos hr]
      rw [Bool.and_eq_true, decide_eq_true_eq] at hr
      exact Or.inr (Or.inr ⟨rfl, hr.1, Or.inr ⟨hl', hr.2⟩⟩)
    · rw [if_neg hr]
      rw [Bool.and_eq_true, decide_eq_true_eq, not_and_or] at hr
      have hr' : 2 * p + 2 < len → comp (f p) (f (2 * p + 2)) = false := by
        intro h2
        rcases hr with h | h
        · exact absurd h2 h
        · exact Bool.eq_false_iff.mpr h
      exact Or.inl ⟨rfl, hl', hr'⟩

/-- When __heapify decides to swap, the chosen index is an existing child of
parentIdx. -/
theorem chooseLargest_ne_bounds {α : Type} {comp : α → α → Bool}
    {f : Nat → α} {len p : Nat}
    (hne : chooseLargest comp f len p ≠ p) :
    p < chooseLargest comp f len p ∧ chooseLargest comp f len p < len ∧
      (chooseLargest comp f len p - 1) / 2 = p := by
  rcases chooseLargest_destruct comp f len p with h | h | h
  · exact absurd h.1 hne
  · rw [h.1]; refine ⟨by omega, h.2.1, by omega⟩
  · rw [h.1]; refine ⟨by omega, h.2.1, by omega⟩

/-- When __heapify decides to swap and comp is a strict weak ordering, the
chosen child compares greater than the parent and not less than its sibling. -/
theorem chooseLargest_swap_facts {α : Type} {comp : α → α → Bool}
    (ha : Asymm comp) (hs : CompSplit comp) {f : Nat → α} {len p : Nat}
    (hne : chooseLargest comp f len p ≠ p) :
    comp (f p) (f (chooseLargest comp f len p)) = true ∧
    comp (f (chooseLargest comp f len p)) (f p) = false ∧
    (∀ c, c < len → 0 < c → (c - 1) / 2 = p → c ≠ chooseLargest comp f len p →
      comp (f (chooseLargest comp f len p)) (f c) = false) := by
  rcases chooseLargest_destruct comp f len p with h | h | h
  · exact absurd h.1 hne
  · -- the left child won
    obtain ⟨hL, hllen, hpl, hlr⟩ := h
    rw [hL]
    refine ⟨hpl, ha _ _ hpl, fun c hc hc0 hcp hcl => ?_⟩
    have : c = 2 * p + 2 := by omega
    subst this
    exact hlr hc
  · -- the right child won
    obtain ⟨hL, hrlen, hcase⟩ := h
    rw [hL]
    have hpr : comp (f p) (f (2 * p + 2)) = true := by
      rcases hcase with ⟨_, hpl, hlr⟩ | ⟨_, hpr⟩
      · exact comp_trans ha hs hpl hlr
      · exact hpr
    refine ⟨hpr, ha _ _ hpr, fun c hc hc0 hcp hcr => ?_⟩
    have : c = 2 * p + 1 := by omega
    subst this
    rcases hcase with ⟨_, _, hlr⟩ | ⟨hpl, _⟩
    · exact ha _ _ hlr
    · by_contra hcon
      rw [Bool.not_eq_false] at hcon
      rcases hs _ _ (f p) hcon with h' | h'
      · rw [ha _ _ hpr] at h'; exact Bool.noConfusion h'
      · rw [hpl hc] at h'; exact Bool.noConfusion h'

/-- When __heapify stops, the parent compares not less than each existing
child. -/
theorem chooseLargest_stop {α : Type} {comp : α → α → Bool} {f : Nat → α}
    {len p : Nat} (heq : chooseLargest comp f len p = p) :
    ∀ c, c < len → 0 < c → (c - 1) / 2 = p → comp (f p) (f c) = false := by
  intro c hc hc0 hcp
  rcases chooseLargest_destruct comp f len p with h | h | h
  · have : c = 2 * p + 1 ∨ c = 2 * p + 2 := by omega
    rcases this with h' | h'
    · subst h'; exact h.2.1 hc
    · subst h'; exact h.2.2 hc
  · rw [h.1] at heq; omega
  · rw [h.1] at heq; omega

/-- One-step unfolding of the __heapify loop in the swapping case. -/
theorem heapifyLoop_eq_swap {α : Type} {comp : α → α → Bool} {f : Nat → α}
    {len p : Nat} (hne : chooseLargest comp f len p ≠ p) :
    heapifyLoop comp len f p =
      heapifyLoop comp len (swapF f p (chooseLargest comp f len p))
        (chooseLargest comp f len p) := by
  rw [heapifyLoop]
  simp only [dif_pos hne]

/-- One-step unfolding of the __heapify loop in the stopping case. -/
theorem heapifyLoop_eq_stop {α : Type} {comp : α → α → Bool} {f : Nat → α}
    {len p : Nat} (heq : chooseLargest comp f len p = p) :
    heapifyLoop comp len f p = f := by
  rw [heapifyLoop]
  simp [heq]

/-- The __heapify loop never touches a slot at or beyond len. -/
theorem heapifyLoop_unchanged_ge {α : Type} (comp : α → α → Bool) (len : Nat) :
    ∀ (f : Nat → α) (k : Nat) (i : Nat), len ≤ i →
      heapifyLoop comp len f k i = f i := by
  apply heapifyLoop.induct comp len
    (motive := fun f k => ∀ i, len ≤ i → heapifyLoop comp len f k i = f i)
  · intro f p L
    have hLdef : L = chooseLargest comp f len p := rfl
    clear_value L
    subst hLdef
    intro hne ih i hi
    obtain ⟨hpL, hLlen, _⟩ := chooseLargest_ne_bounds hne
    rw [heapifyLoop_eq_swap hne, ih i hi,
      swapF_other f p _ i (by omega) (by omega)]
  · intro f p L
    have hLdef : L = chooseLargest comp f len p := rfl
    clear_value L
    subst hLdef
    intro hne i hi
    rw [not_not] at hne
    rw [heapifyLoop_eq_stop hne]

/-- The __heapify loop permutes the contents of the range. -/
theorem heapifyLoop_perm {α : Type} (comp : α → α → Bool) (len : Nat) :
    ∀ (f : Nat → α) (k : Nat),
      List.Perm (listOf (heapifyLoop comp len f k) len) (listOf f len) := by
  apply heapifyLoop.induct comp len
    (motive := fun f k => List.Perm (listOf (heapifyLoop comp len f k) len) (listOf f len))
  · intro f p L
    have hLdef : L = chooseLargest comp f len p := rfl
    clear_value L
    subst hLdef
    intro hne ih
    obtain ⟨hpL, hLlen, _⟩ := chooseLargest_ne_bounds hne
    rw [heapifyLoop_eq_swap hne]
    exact ih.trans (listOf_swapF_perm f len p _ (by omega) hLlen)
  · intro f p L
    have hLdef : L = chooseLargest comp f len p := rfl
    clear_value L
    subst hLdef
    intro hne
    rw [not_not] at hne
    rw [heapifyLoop_eq_stop hne]

/-- Main correctness of the __heapify loop: starting at hole k with every
heap edge in the region of parents at or above start in order except
possibly the edges out of k, and with the children of k in order below the
parent of k whenever the hole has moved (start < k), the loop restores the
heap contract on the whole region. -/
theorem heapifyLoop_heapFrom {α : Type} {comp : α → α → Bool}
    (ha : Asymm comp) (hs : CompSplit comp) (len start : Nat) :
    ∀ (f : Nat → α) (k : Nat), start ≤ k →
      (∀ c, c < len → 0 < c → start ≤ (c - 1) / 2 → (c - 1) / 2 ≠ k →
        comp (f ((c - 1) / 2)) (f c) = false) →
      (start < k → ∀ c, c < len → 0 < c → (c - 1) / 2 = k →
        comp (f ((k - 1) / 2)) (f c) = false) →
      HeapFrom comp (heapifyLoop comp len f k) len start := by
  apply heapifyLoop.induct comp len
    (motive := fun f k => start ≤ k →
      (∀ c, c < len → 0 < c → start ≤ (c - 1) / 2 → (c - 1) / 2 ≠ k →
        comp (f ((c - 1) / 2)) (f c) = false) →
      (start < k → ∀ c, c < len → 0 < c → (c - 1) / 2 = k →
        comp (f ((k - 1) / 2)) (f c) = false) →
      HeapFrom comp (heapifyLoop comp len f k) len start)
  · -- swapping step
    intro f p L
    have hLdef : L = chooseLargest comp f len p := rfl
    clear_value L
    subst hLdef
    intro hne ih hstart hA hB
    obtain ⟨hpL, hLlen, hLp⟩ := chooseLargest_ne_bounds hne
    obtain ⟨hcompPL, hcompLP, hsib⟩ := chooseLargest_swap_facts ha hs hne
    set L := chooseLargest comp f len p with hLdef
    rw [heapifyLoop_eq_swap hne]
    refine ih (by omega) ?_ ?_
    · -- heap edges except those out of L, for the swapped contents
      intro c hclen hc0 hcstart hcL
      by_cases hcp : c = p
      · -- the edge into the old hole p
        subst hcp
        rw [swapF_other f c L ((c - 1) / 2) (by omega) hcL, swapF_fst]
        exact hB (by omega) L hLlen (by omega) hLp
      · by_cases hcL' : c = L
        · -- the edge from p into L, now holding the swapped values
          subst hcL'
          rw [hLp, swapF_fst, swapF_snd]
          exact hcompLP
        · rw [swapF_other f p L c hcp hcL']
          by_cases hqp : (c - 1) / 2 = p
          · -- the sibling of L keeps its ordered edge
            rw [hqp, swapF_fst]
            exact hsib c hclen hc0 hqp hcL'
          · -- an edge untouched by the swap
            rw [swapF_other f p L ((c - 1) / 2) hqp hcL]
            exact hA c hclen hc0 hcstart hqp
    · -- children of the new hole L stay below the old parent value now at p
      intro hstartL c hclen hc0 hcL
      have hcgt : 2 * L + 1 ≤ c := by omega
      rw [hLp, swapF_fst, swapF_other f p L c (by omega) (by omega)]
      have := hA c hclen hc0 (by omega) (by omega)
      rwa [hcL] at this
  · -- stopping step
    intro f p L
    have hLdef : L = chooseLargest comp f len p := rfl
    clear_value L
    subst hLdef
    intro hne hstart hA hB
    rw [not_not] at hne
    rw [heapifyLoop_eq_stop hne]
    intro c hclen hc0 hcstart
    by_cases hqp : (c - 1) / 2 = p
    · rw [hqp]
      exact chooseLargest_stop hne c hclen hc0 hqp
    · exact hA c hclen hc0 hcstart hqp

/-! Correctness of make_heap: Floyd's bottom-up construction. -/

theorem make_heapLoop_heapFrom {α : Type} {comp : α → α → Bool}
    (ha : Asymm comp) (hs : CompSplit comp) (len : Nat) :
    ∀ (start : Nat) (f : Nat → α), HeapFrom comp f len (start + 1) →
      HeapFrom comp (make_heapLoop comp len f start) len 0 := by
  intro start
  induction start with
  | zero =>
    intro f hf
    show HeapFrom comp (__heapify comp len f 0) len 0
    exact heapifyLoop_heapFrom ha hs len 0 f 0 (Nat.le_refl 0)
      (fun c hc hc0 _ hq0 => hf c hc hc0 (by omega))
      (fun h => absurd h (by omega))
  | succ s ih =>
    intro f hf
    show HeapFrom comp (make_heapLoop comp len (__heapify comp len f (s + 1)) s) len 0
    apply ih
    exact heapifyLoop_heapFrom ha hs len (s + 1) f (s + 1) (Nat.le_refl _)
      (fun c hc hc0 hq hq' => hf c hc hc0 (by omega))
      (fun h => absurd h (by omega))

theorem heapFrom_zero_iff_isHeap {α : Type} {comp : α → α → Bool}
    {f : Nat → α} {len : Nat} : HeapFrom comp f len 0 ↔ IsHeap comp f len := by
  constructor
  · intro h c hc hc0
    exact h c hc hc0 (Nat.zero_le _)
  · intro h c hc hc0 _
    exact h c hc hc0

/-- After make_heap the range satisfies the heap property, for any strict
weak ordering comparator. -/
theorem make_heap_IsHeap {α : Type} {comp : α → α → Bool}
    (ha : Asymm comp) (hs : CompSplit comp) (f : Nat → α) (len : Nat) :
    IsHeap comp (make_heap comp f len) len := by
  rw [make_heap]
  by_cases hlen : len ≤ 1
  · rw [if_pos hlen]
    intro c hc hc0
    omega
  · rw [if_neg hlen]
    rw [← heapFrom_zero_iff_isHeap]
    apply make_heapLoop_heapFrom ha hs
    intro c hc hc0 hq
    omega

/-! The is_heap predicate decides the IsHeap contract. -/

theorem is_heapLoop_iff {α : Type} (comp : α → α → Bool) (f : Nat → α)
    (len : Nat) : ∀ (idx : Nat), is_heapLoop comp f len idx = true ↔
      (∀ c, c < len → idx ≤ c → comp (f ((c - 1) / 2)) (f c) = false) := by
  apply is_heapLoop.induct comp f len
    (motive := fun idx => is_heapLoop comp f len idx = true ↔
      (∀ c, c < len → idx ≤ c → comp (f ((c - 1) / 2)) (f c) = false))
  · intro x hx hcomp
    rw [is_heapLoop, if_pos hx, if_pos hcomp]
    constructor
    · intro h; exact Bool.noConfusion h
    · intro h
      have := h x hx (Nat.le_refl x)
      rw [hcomp] at this
      exact Bool.noConfusion this
  · intro x hx hcomp ih
    rw [Bool.not_eq_true] at hcomp
    rw [is_heapLoop, if_pos hx, hcomp, if_neg (Bool.false_ne_true)]
    rw [ih]
    constructor
    · intro h c hc hxc
      rcases Nat.eq_or_lt_of_le hxc with h' | h'
      · rw [← h']; exact hcomp
      · exact h c hc h'
    · intro h c hc hxc
      exact h c hc (by omega)
  · intro x hx
    rw [is_heapLoop, if_neg hx]
    constructor
    · intro _ c hc hxc
      omega
    · intro _; rfl

theorem is_heap_iff_IsHeap {α : Type} (comp : α → α → Bool) (f : Nat → α)
    (len : Nat) : is_heap comp f len = true ↔ IsHeap comp f len := by
  rw [is_heap]
  by_cases hlen : len = 1
  · rw [if_pos hlen]
    subst hlen
    constructor
    · intro _ c hc hc0; omega
    · intro _; rfl
  · rw [if_neg hlen, is_heapLoop_iff]
    constructor
    · intro h c hc hc0
      exact h c hc (by omega)
    · intro h c hc hc1
      exact h c hc (by omega)

/-! Correctness of push_heap: the sift-up primitive. -/

theorem push_heapLoop_eq_swap {α : Type} {comp : α → α → Bool} {f : Nat → α}
    {k : Nat} (h0 : 0 < k) (hcmp : comp (f ((k - 1) / 2)) (f k) = true) :
    push_heapLoop comp f k =
      push_heapLoop comp (swapF f ((k - 1) / 2) k) ((k - 1) / 2) := by
  rw [push_heapLoop]
  simp [h0, hcmp]

theorem push_heapLoop_eq_stop_zero {α : Type} {comp : α → α → Bool}
    {f : Nat → α} : push_heapLoop comp f 0 = f := by
  rw [push_heapLoop]
  simp

theorem push_heapLoop_eq_stop_false {α : Type} {comp : α → α → Bool}
    {f : Nat → α} {k : Nat} (hcmp : comp (f ((k - 1) / 2)) (f k) = false) :
    push_heapLoop comp f k = f := by
  rw [push_heapLoop]
  simp [hcmp]

theorem push_heapLoop_isHeap {α : Type} {comp : α → α → Bool}
    (ha : Asymm comp) (hs : CompSplit comp) (len : Nat) :
    ∀ (f : Nat → α) (k : Nat), k < len →
      (∀ c, c < len → 0 < c → c ≠ k → comp (f ((c - 1) / 2)) (f c) = false) →
      (∀ c, c < len → 0 < c → (c - 1) / 2 = k → 0 < k →
        comp (f ((k - 1) / 2)) (f c) = false) →
      IsHeap comp (push_heapLoop comp f k) len := by
  apply push_heapLoop.induct comp
    (motive := fun f k => k < len →
      (∀ c, c < len → 0 < c → c ≠ k → comp (f ((c - 1) / 2)) (f c) = false) →
      (∀ c, c < len → 0 < c → (c - 1) / 2 = k → 0 < k →
        comp (f ((k - 1) / 2)) (f c) = false) →
      IsHeap comp (push_heapLoop comp f k) len)
  · -- swapping step
    intro f k q
    have hqdef : q = (k - 1) / 2 := rfl
    clear_value q
    subst hqdef
    intro hcond ih hk hA hB
    rw [Bool.and_eq_true, decide_eq_true_eq] at hcond
    obtain ⟨h0, hcmp⟩ := hcond
    rw [push_heapLoop_eq_swap h0 hcmp]
    have hqk : (k - 1) / 2 < k := by omega
    refine ih (by omega) ?_ ?_
    · -- heap edges except the one into the new hole (k-1)/2
      intro c hclen hc0 hcq
      by_cases hck : c = k
      · -- the swapped edge itself, now in order by asymmetry
        subst hck
        rw [swapF_snd]
        have : swapF f ((c - 1) / 2) c ((c - 1) / 2) = f c := swapF_fst f _ c
        rw [this]
        exact ha _ _ hcmp
      · by_cases hcq' : (c - 1) / 2 = (k - 1) / 2
        · -- the sibling of k under the old parent
          rw [hcq', swapF_fst, swapF_other f _ k c hcq hck]
          by_contra hcon
          rw [Bool.not_eq_false] at hcon
          rcases hs (f k) (f c) (f ((k - 1) / 2)) hcon with h' | h'
          · rw [ha _ _ hcmp] at h'; exact Bool.noConfusion h'
          · have := hA c hclen hc0 hck
            rw [hcq'] at this
            rw [this] at h'
            exact Bool.noConfusion h'
        · by_cases hck' : (c - 1) / 2 = k
          · -- a child of k now compares against the old parent value
            have hcq2 : c ≠ (k - 1) / 2 := by omega
            rw [hck', swapF_snd, swapF_other f _ k c hcq2 hck]
            exact hB c hclen hc0 hck' h0
          · -- an edge untouched by the swap
            rw [swapF_other f _ k c hcq hck, swapF_other f _ k ((c - 1) / 2) hcq' hck']
            exact hA c hclen hc0 hck
    · -- children of the new hole stay below its own parent
      intro c hclen hc0 hcq h0'
      have hqq : ((k - 1) / 2 - 1) / 2 < (k - 1) / 2 := by omega
      rw [swapF_other f _ k (((k - 1) / 2 - 1) / 2) (by omega) (by omega)]
      by_cases hck : c = k
      · -- the old hole k now holds the old parent value
        subst hck
        rw [swapF_snd]
        exact hA _ (by omega) h0' hqk.ne
      · -- the sibling of k under the new hole
        have hcq2 : c ≠ (k - 1) / 2 := by omega
        rw [swapF_other f _ k c hcq2 hck]
        have h1 : comp (f (((k - 1) / 2 - 1) / 2)) (f ((k - 1) / 2)) = false :=
          hA _ (by omega) h0' hqk.ne
        have h2 : comp (f ((k - 1) / 2)) (f c) = false := by
          have := hA c hclen hc0 hck
          rwa [hcq] at this
        exact comp_neg_trans hs h1 h2
  · -- stopping step
    intro f k q
    have hqdef : q = (k - 1) / 2 := rfl
    clear_value q
    subst hqdef
    intro hcond hk hA hB
    simp only [Bool.and_eq_true, decide_eq_true_eq, not_and_or] at hcond
    have hstop : push_heapLoop comp f k = f := by
      rcases hcond with h | h
      · have : k = 0 := by omega
        subst this
        exact push_heapLoop_eq_stop_zero
      · rw [Bool.not_eq_true] at h
        exact push_heapLoop_eq_stop_false h
    rw [hstop]
    intro c hclen hc0
    by_cases hck : c = k
    · subst hck
      rcases hcond with h | h
      · omega
      · rw [Bool.not_eq_true] at h
        exact h
    · exact hA c hclen hc0 hck

theorem push_heapLoop_perm {α : Type} (comp : α → α → Bool) (len : Nat) :
    ∀ (f : Nat → α) (k : Nat), k < len →
      List.Perm (listOf (push_heapLoop comp f k) len) (listOf f len) := by
  apply push_heapLoop.induct comp
    (motive := fun f k => k < len →
      List.Perm (listOf (push_heapLoop comp f k) len) (listOf f len))
  · intro f k q
    have hqdef : q = (k - 1) / 2 := rfl
    clear_value q
    subst hqdef
    intro hcond ih hk
    rw [Bool.and_eq_true, decide_eq_true_eq] at hcond
    obtain ⟨h0, hcmp⟩ := hcond
    rw [push_heapLoop_eq_swap h0 hcmp]
    exact (ih (by omega)).trans (listOf_swapF_perm f len _ k (by omega) hk)
  · intro f k q
    have hqdef : q = (k - 1) / 2 := rfl
    clear_value q
    subst hqdef
    intro hcond hk
    simp only [Bool.and_eq_true, decide_eq_true_eq, not_and_or] at hcond
    rcases hcond with h | h
    · have : k = 0 := by omega
      subst this
      rw [push_heapLoop_eq_stop_zero]
    · rw [Bool.not_eq_true] at h
      rw [push_heapLoop_eq_stop_false h]

/-- After appending a new element at slot len - 1 of a range whose prefix
[0, len - 1) is a heap, push_heap restores the heap property on the whole
range. -/
theorem push_heap_IsHeap {α : Type} {comp : α → α → Bool}
    (ha : Asymm comp) (hs : CompSplit comp) (f : Nat → α) (len : Nat)
    (hpre : IsHeap comp f (len - 1)) :
    IsHeap comp (push_heap comp f len) len := by
  rw [push_heap]
  by_cases hlen : len ≤ 1
  · rw [if_pos hlen]
    intro c hc hc0
    omega
  · rw [if_neg hlen]
    apply push_heapLoop_isHeap ha hs len f (len - 1) (by omega)
    · intro c hclen hc0 hck
      exact hpre c (by omega) hc0
    · intro c hclen hc0 hck h0
      omega

theorem push_heap_perm {α : Type} (comp : α → α → Bool) (f : Nat → α)
    (len : Nat) :
    List.Perm (listOf (push_heap comp f len) len) (listOf f len) := by
  rw [push_heap]
  by_cases hlen : len ≤ 1
  · rw [if_pos hlen]
  · rw [if_neg hlen]
    exact push_heapLoop_perm comp len f (len - 1) (by omega)

/-! Correctness of pop_heap. -/

/-- In a heap the root compares not less than every element: negative
transitivity lifts the edge-wise contract along the parent chains. -/
theorem isHeap_root_max {α : Type} {comp : α → α → Bool}
    (ha : Asymm comp) (hs : CompSplit comp) {f : Nat → α} {len : Nat}
    (hheap : IsHeap comp f len) :
    ∀ i, i < len → comp (f 0) (f i) = false := by
  intro i
  induction i using Nat.strong_induction_on with
  | _ i ih =>
    intro hi
    match i with
    | 0 => exact comp_irrefl ha (f 0)
    | j + 1 =>
      have hparent := ih ((j + 1 - 1) / 2) (by omega) (by omega)
      exact comp_neg_trans hs hparent (hheap (j + 1) hi (by omega))

/-- pop_heap restores the heap property on the range shortened by one. -/
theorem pop_heap_IsHeap {α : Type} {comp : α → α → Bool}
    (ha : Asymm comp) (hs : CompSplit comp) (f : Nat → α) (len : Nat)
    (hheap : IsHeap comp f len) :
    IsHeap comp (pop_heap comp f len) (len - 1) := by
  rw [pop_heap]
  by_cases hlen : len ≤ 1
  · rw [if_pos hlen]
    intro c hc hc0
    omega
  · rw [if_neg hlen]
    rw [← heapFrom_zero_iff_isHeap]
    apply heapifyLoop_heapFrom ha hs (len - 1) 0 _ 0 (Nat.le_refl 0)
    · intro c hclen hc0 _ hq0
      rw [swapF_other f 0 (len - 1) c (by omega) (by omega),
        swapF_other f 0 (len - 1) ((c - 1) / 2) hq0 (by omega)]
      exact hheap c (by omega) hc0
    · intro h
      exact absurd h (by omega)

/-- pop_heap moves the old root value into the last slot of the range. -/
theorem pop_heap_last {α : Type} (comp : α → α → Bool) (f : Nat → α)
    (len : Nat) (hlen : 1 ≤ len) :
    pop_heap comp f len (len - 1) = f 0 := by
  rw [pop_heap]
  by_cases h1 : len ≤ 1
  · rw [if_pos h1]
    have : len = 1 := by omega
    rw [this]
  · rw [if_neg h1]
    show __heapify comp (len - 1) (swapF f 0 (len - 1)) 0 (len - 1) = f 0
    rw [__heapify, heapifyLoop_unchanged_ge comp (len - 1) _ 0 (len - 1) (Nat.le_refl _),
      swapF_snd]

/-- pop_heap never touches a slot at or beyond len. -/
theorem pop_heap_unchanged_ge {α : Type} (comp : α → α → Bool) (f : Nat → α)
    (len : Nat) : ∀ i, len ≤ i → pop_heap comp f len i = f i := by
  intro i hi
  rw [pop_heap]
  by_cases h1 : len ≤ 1
  · rw [if_pos h1]
  · rw [if_neg h1]
    show __heapify comp (len - 1) (swapF f 0 (len - 1)) 0 i = f i
    rw [__heapify, heapifyLoop_unchanged_ge comp (len - 1) _ 0 i (by omega),
      swapF_other f 0 (len - 1) i (by omega) (by omega)]

/-- pop_heap permutes the contents of the range. -/
theorem pop_heap_perm {α : Type} (comp : α → α → Bool) (f : Nat → α)
    (len : Nat) :
    List.Perm (listOf (pop_heap comp f len) len) (listOf f len) := by
  rw [pop_heap]
  by_cases h1 : len ≤ 1
  · rw [if_pos h1]
  · rw [if_neg h1]
    show List.Perm (listOf (__heapify comp (len - 1) (swapF f 0 (len - 1)) 0) len) _
    have hsplit : len - 1 + 1 = len := by omega
    have e1 : listOf (__heapify comp (len - 1) (swapF f 0 (len - 1)) 0) len =
        listOf (__heapify comp (len - 1) (swapF f 0 (len - 1)) 0) (len - 1) ++
          [swapF f 0 (len - 1) (len - 1)] := by
      rw [← hsplit, listOf_succ]
      congr 1
      rw [hsplit]
      rw [show __heapify comp (len - 1) (swapF f 0 (len - 1)) 0 (len - 1) =
        swapF f 0 (len - 1) (len - 1) from
        heapifyLoop_unchanged_ge comp (len - 1) _ 0 (len - 1) (Nat.le_refl _)]
    rw [e1]
    have p1 : List.Perm (listOf (__heapify comp (len - 1) (swapF f 0 (len - 1)) 0) (len - 1))
        (listOf (swapF f 0 (len - 1)) (len - 1)) :=
      heapifyLoop_perm comp (len - 1) _ 0
    have p2 : List.Perm
        (listOf (__heapify comp (len - 1) (swapF f 0 (len - 1)) 0) (len - 1) ++
          [swapF f 0 (len - 1) (len - 1)])
        (listOf (swapF f 0 (len - 1)) (len - 1) ++ [swapF f 0 (len - 1) (len - 1)]) :=
      p1.append_right _
    refine p2.trans ?_
    rw [← listOf_succ, hsplit]
    exact listOf_swapF_perm f len 0 (len - 1) (by omega) (by omega)

/-! Correctness of sort_heap and of the push-all / pop-all round trips. -/

theorem sort_heapLoop_spec {α : Type} {comp : α → α → Bool}
    (ha : Asymm comp) (hs : CompSplit comp) :
    ∀ (n : Nat) (f : Nat → α), IsHeap comp f n →
      List.Perm (listOf (sort_heapLoop comp f n) n) (listOf f n) ∧
      (∀ i, n ≤ i → sort_heapLoop comp f n i = f i) ∧
      List.Pairwise (fun a b => comp b a = false) (listOf (sort_heapLoop comp f n) n) := by
  intro n
  induction n with
  | zero =>
    intro f _
    exact ⟨List.Perm.refl _, fun i _ => rfl, by simp [listOf]⟩
  | succ n ih =>
    intro f hf
    have hG : sort_heapLoop comp f (n + 1) =
        sort_heapLoop comp (pop_heap comp f (n + 1)) n := rfl
    set g1 := pop_heap comp f (n + 1) with hg1def
    have hg1 : IsHeap comp g1 n := by
      have := pop_heap_IsHeap ha hs f (n + 1) hf
      simpa using this
    obtain ⟨ihperm, ihunch, ihpw⟩ := ih g1 hg1
    have hmax : ∀ i, i < n + 1 → comp (f 0) (f i) = false :=
      isHeap_root_max ha hs hf
    have hlast : g1 n = f 0 := by
      have := pop_heap_last comp f (n + 1) (by omega)
      simpa using this
    have hmem : ∀ a, a ∈ listOf (sort_heapLoop comp g1 n) n →
        comp (f 0) a = false := by
      intro a hain
      have h1 : a ∈ listOf g1 n := (ihperm.mem_iff).mp hain
      have h2 : a ∈ listOf g1 (n + 1) := by
        rw [listOf_succ]
        exact List.mem_append_left _ h1
      have h3 : a ∈ listOf f (n + 1) :=
        ((pop_heap_perm comp f (n + 1)).mem_iff).mp h2
      obtain ⟨i, hi, hia⟩ := mem_listOf.mp h3
      rw [← hia]
      exact hmax i hi
    refine ⟨?_, ?_, ?_⟩
    · rw [hG, listOf_succ, ihunch n (Nat.le_refl n)]
      refine (ihperm.append_right [g1 n]).trans ?_
      rw [← listOf_succ]
      exact pop_heap_perm comp f (n + 1)
    · intro i hi
      rw [hG, ihunch i (by omega)]
      exact pop_heap_unchanged_ge comp f (n + 1) i hi
    · rw [hG, listOf_succ, List.pairwise_append]
      refine ⟨ihpw, by simp, ?_⟩
      intro a hain b hbin
      rw [List.mem_singleton] at hbin
      rw [hbin, ihunch n (Nat.le_refl n), hlast]
      exact hmem a hain

theorem popAllLoop_spec {α : Type} {comp : α → α → Bool}
    (ha : Asymm comp) (hs : CompSplit comp) :
    ∀ (n : Nat) (f : Nat → α), IsHeap comp f n →
      List.Perm (popAllLoop comp f n) (listOf f n) ∧
      List.Pairwise (fun a b => comp a b = false) (popAllLoop comp f n) := by
  intro n
  induction n with
  | zero =>
    intro f _
    exact ⟨by simp [popAllLoop, listOf], by simp [popAllLoop]⟩
  | succ n ih =>
    intro f hf
    have hG : popAllLoop comp f (n + 1) =
        pop_heap comp f (n + 1) n :: popAllLoop comp (pop_heap comp f (n + 1)) n := rfl
    set g1 := pop_heap comp f (n + 1) with hg1def
    have hg1 : IsHeap comp g1 n := by
      have := pop_heap_IsHeap ha hs f (n + 1) hf
      simpa using this
    obtain ⟨ihperm, ihpw⟩ := ih g1 hg1
    have hmax : ∀ i, i < n + 1 → comp (f 0) (f i) = false :=
      isHeap_root_max ha hs hf
    have hlast : g1 n = f 0 := by
      have := pop_heap_last comp f (n + 1) (by omega)
      simpa using this
    have hmem : ∀ a, a ∈ popAllLoop comp g1 n → comp (f 0) a = false := by
      intro a hain
      have h1 : a ∈ listOf g1 n := (ihperm.mem_iff).mp hain
      have h2 : a ∈ listOf g1 (n + 1) := by
        rw [listOf_succ]
        exact List.mem_append_left _ h1
      have h3 : a ∈ listOf f (n + 1) :=
        ((pop_heap_perm comp f (n + 1)).mem_iff).mp h2
      obtain ⟨i, hi, hia⟩ := mem_listOf.mp h3
      rw [← hia]
      exact hmax i hi
    constructor
    · rw [hG]
      refine (ihperm.cons (g1 n)).trans ?_
      refine ((List.perm_append_singleton (g1 n) (listOf g1 n)).symm).trans ?_
      rw [← listOf_succ]
      exact pop_heap_perm comp f (n + 1)
    · rw [hG, List.pairwise_cons]
      refine ⟨?_, ihpw⟩
      intro a hain
      rw [hlast]
      exact hmem a hain

theorem setF_prefix_isHeap {α : Type} {comp : α → α → Bool} {f : Nat → α}
    {len : Nat} (hf : IsHeap comp f len) (v : α) :
    IsHeap comp (setF f len v) len := by
  intro c hc hc0
  rw [setF_other f len v (by omega), setF_other f len v (by omega)]
  exact hf c hc hc0

theorem listOf_setF_append {α : Type} (f : Nat → α) (len : Nat) (v : α) :
    listOf (setF f len v) (len + 1) = listOf f len ++ [v] := by
  rw [listOf_succ, setF_same]
  congr 1
  apply listOf_congr
  intro i hi
  exact setF_other f len v (by omega)

theorem pushAllLoop_spec {α : Type} {comp : α → α → Bool}
    (ha : Asymm comp) (hs : CompSplit comp) :
    ∀ (xs : List α) (f : Nat → α) (len : Nat), IsHeap comp f len →
      IsHeap comp (pushAllLoop comp f len xs).1 (pushAllLoop comp f len xs).2 ∧
      (pushAllLoop comp f len xs).2 = len + xs.length ∧
      List.Perm (listOf (pushAllLoop comp f len xs).1 (pushAllLoop comp f len xs).2)
        (listOf f len ++ xs) := by
  intro xs
  induction xs with
  | nil =>
    intro f len hf
    exact ⟨hf, rfl, by simp [pushAllLoop]⟩
  | cons x xs ih =>
    intro f len hf
    have hG : pushAllLoop comp f len (x :: xs) =
        pushAllLoop comp (push_heap comp (setF f len x) (len + 1)) (len + 1) xs := rfl
    have hf1 : IsHeap comp (push_heap comp (setF f len x) (len + 1)) (len + 1) := by
      apply push_heap_IsHeap ha hs
      have := setF_prefix_isHeap hf x
      simpa using this
    obtain ⟨h1, h2, h3⟩ := ih (push_heap comp (setF f len x) (len + 1)) (len + 1) hf1
    rw [hG]
    refine ⟨h1, by rw [h2]; simp; omega, ?_⟩
    refine h3.trans ?_
    have hp : List.Perm (listOf (push_heap comp (setF f len x) (len + 1)) (len + 1))
        (listOf f len ++ [x]) := by
      rw [← listOf_setF_append]
      exact push_heap_perm comp (setF f len x) (len + 1)
    refine (hp.append_right xs).trans ?_
    rw [List.append_assoc, List.singleton_append]

/-! The default comparator std::less on Int is a strict weak ordering. -/

theorem intLt_asymm : Asymm intLt := by
  intro a b h
  simp only [intLt, decide_eq_true_eq] at h
  simp only [intLt, decide_eq_false_iff_not]
  omega

theorem intLt_split : CompSplit intLt := by
  intro a b c h
  simp only [intLt, decide_eq_true_eq] at h
  simp only [intLt, decide_eq_true_eq]
  omega

/-! Claim theorems. -/

/-- C1, counterexample: the claim quantifies over every comparison
predicate, but for the everywhere-true predicate make_heap cannot establish
is_heap: on the two-element range [0, 0] the result still fails is_heap,
because no parent/child pair can satisfy the contract under a predicate
that always holds. -/
theorem make_heap_arbitrary_comp_fails :
    is_heap compTrue (make_heap compTrue f02 2) 2 = false := by
  simp [make_heap, make_heapLoop, __heapify, heapifyLoop, chooseLargest, swapF,
    compTrue, f02, is_heap, is_heapLoop]

/-- C1, amended: for every range and every comparison predicate satisfying
the strict-weak-order laws required of a supported comparator, make_heap
establishes the heap property (is_heap returns true); make_heap performs
bottom-up construction by sifting down from start index len/2 - 1 down to 0
inclusive, and is a no-op when the range length is at most 1. -/
theorem make_heap_establishes_is_heap {α : Type} (comp : α → α → Bool)
    (ha : Asymm comp) (hs : CompSplit comp) (f : Nat → α) (len : Nat) :
    is_heap comp (make_heap comp f len) len = true ∧
    (len ≤ 1 → make_heap comp f len = f) ∧
    (2 ≤ len → make_heap comp f len = make_heapLoop comp len f (len / 2 - 1)) := by
  refine ⟨?_, ?_, ?_⟩
  · rw [is_heap_iff_IsHeap]
    exact make_heap_IsHeap ha hs f len
  · intro h
    rw [make_heap, if_pos h]
  · intro h
    rw [make_heap, if_neg (by omega)]

/-- C1, witness: the amended theorem applied to the end-to-end data with
the default comparator. -/
theorem make_heap_establishes_is_heap_witness :
    is_heap intLt (make_heap intLt f9 5) 5 = true ∧
    ((5 : Nat) ≤ 1 → make_heap intLt f9 5 = f9) ∧
    ((2 : Nat) ≤ 5 → make_heap intLt f9 5 = make_heapLoop intLt 5 f9 (5 / 2 - 1)) :=
  make_heap_establishes_is_heap intLt intLt_asymm intLt_split f9 5

/-- C5, counterexample: under the everywhere-true comparison predicate,
pushing 0 then 1 with push_heap after each append and popping both with
pop_heap yields [1, 0], which is not comp-descending, since the predicate
still relates 1 before 0; so the claim fails for an arbitrary comparison
predicate. -/
theorem push_pop_round_trip_arbitrary_comp_fails :
    popAllLoop compTrue (pushAllLoop compTrue f02 0 [0, 1]).1
      (pushAllLoop compTrue f02 0 [0, 1]).2 = [1, 0] ∧
    ¬ List.Pairwise (fun a b => compTrue a b = false)
      (popAllLoop compTrue (pushAllLoop compTrue f02 0 [0, 1]).1
        (pushAllLoop compTrue f02 0 [0, 1]).2) := by
  have h : popAllLoop compTrue (pushAllLoop compTrue f02 0 [0, 1]).1
      (pushAllLoop compTrue f02 0 [0, 1]).2 = [1, 0] := by
    simp [pushAllLoop, popAllLoop, push_heap, push_heapLoop, pop_heap, __heapify,
      heapifyLoop, chooseLargest, swapF, setF, compTrue, f02]
  refine ⟨h, ?_⟩
  rw [h]
  simp [List.pairwise_cons, compTrue]

/-- C5, amended: for every list of elements and every comparator satisfying
the strict-weak-order laws, appending each element followed by push_heap,
starting from an empty range, then repeatedly popping with pop_heap and
shrinking, yields exactly the input elements (a permutation) in
comp-descending order: the elements sorted with comp as the greater
relation. -/
theorem push_pop_round_trip {α : Type} (comp : α → α → Bool)
    (ha : Asymm comp) (hs : CompSplit comp) (xs : List α) (f0 : Nat → α) :
    List.Perm (popAllLoop comp (pushAllLoop comp f0 0 xs).1
      (pushAllLoop comp f0 0 xs).2) xs ∧
    List.Pairwise (fun a b => comp a b = false)
      (popAllLoop comp (pushAllLoop comp f0 0 xs).1 (pushAllLoop comp f0 0 xs).2) ∧
    (pushAllLoop comp f0 0 xs).2 = xs.length := by
  have hf0 : IsHeap comp f0 0 := by
    intro c hc hc0
    omega
  obtain ⟨hheap, hlen, hperm⟩ := pushAllLoop_spec ha hs xs f0 0 hf0
  obtain ⟨pperm, ppw⟩ := popAllLoop_spec ha hs (pushAllLoop comp f0 0 xs).2
    (pushAllLoop comp f0 0 xs).1 hheap
  have hxs : List.Perm (listOf (pushAllLoop comp f0 0 xs).1
      (pushAllLoop comp f0 0 xs).2) xs := by
    refine hperm.trans ?_
    simp [listOf]
  exact ⟨pperm.trans hxs, ppw, by omega⟩

/-- C5, witness: the amended theorem applied to the list [3, 1, 2] with the
default comparator. -/
theorem push_pop_round_trip_witness :
    List.Perm (popAllLoop intLt (pushAllLoop intLt f02 0 [3, 1, 2]).1
      (pushAllLoop intLt f02 0 [3, 1, 2]).2) [3, 1, 2] ∧
    List.Pairwise (fun a b => intLt a b = false)
      (popAllLoop intLt (pushAllLoop intLt f02 0 [3, 1, 2]).1
        (pushAllLoop intLt f02 0 [3, 1, 2]).2) ∧
    (pushAllLoop intLt f02 0 [3, 1, 2]).2 = ([3, 1, 2] : List Int).length :=
  push_pop_round_trip intLt intLt_asymm intLt_split [3, 1, 2] f02

/-- C6, counterexample: the range [0, 1, 2] satisfies the heap property
under the symmetric predicate compSym (which relates only 1 and 2, both
ways), but sort_heap turns it into [2, 1, 0], which is not ascending per
compSym because compSym still relates the later 1 before the earlier 2; so
the claim fails for a comparison predicate that is not a strict weak
ordering. -/
theorem sort_heap_arbitrary_comp_fails :
    IsHeap compSym f012 3 ∧
    listOf (sort_heap compSym f012 3) 3 = [2, 1, 0] ∧
    ¬ List.Pairwise (fun a b => compSym b a = false)
      (listOf (sort_heap compSym f012 3) 3) := by
  have h1 : IsHeap compSym f012 3 := by
    rw [← is_heap_iff_IsHeap]
    simp [is_heap, is_heapLoop, compSym, f012]
  have h2 : listOf (sort_heap compSym f012 3) 3 = [2, 1, 0] := by
    simp [sort_heap, sort_heapLoop, pop_heap, __heapify, heapifyLoop, chooseLargest,
      swapF, compSym, f012, listOf, List.range_succ]
  refine ⟨h1, h2, ?_⟩
  rw [h2]
  simp [List.pairwise_cons, compSym]

/-- C6, amended: for every range satisfying the heap property under a
strict-weak-order comparator, sort_heap produces a permutation of the
original elements in ascending order per comp; it is a no-op when the
length is at most 1; and the result need not satisfy is_heap, witnessed by
the heap [3, 2, 1], which sort_heap turns into the non-heap [1, 2, 3]. -/
theorem sort_heap_sorts {α : Type} (comp : α → α → Bool)
    (ha : Asymm comp) (hs : CompSplit comp) (f : Nat → α) (len : Nat) :
    (IsHeap comp f len →
      List.Pairwise (fun a b => comp b a = false) (listOf (sort_heap comp f len) len) ∧
      List.Perm (listOf (sort_heap comp f len) len) (listOf f len)) ∧
    (len ≤ 1 → sort_heap comp f len = f) ∧
    is_heap intLt (sort_heap intLt f321 3) 3 = false := by
  refine ⟨?_, ?_, ?_⟩
  · intro hheap
    rw [sort_heap]
    by_cases hlen : len ≤ 1
    · rw [if_pos hlen]
      interval_cases len
      · exact ⟨by simp [listOf], List.Perm.refl _⟩
      · refine ⟨?_, List.Perm.refl _⟩
        rw [show (1 : Nat) = 0 + 1 from rfl, listOf_succ]
        simp [listOf]
    · rw [if_neg hlen]
      obtain ⟨hperm, _, hpw⟩ := sort_heapLoop_spec ha hs len f hheap
      exact ⟨hpw, hperm⟩
  · intro h
    rw [sort_heap, if_pos h]
  · simp [sort_heap, sort_heapLoop, pop_heap, __heapify, heapifyLoop, chooseLargest,
      swapF, intLt, f321, is_heap, is_heapLoop]

/-- C6, witness: the amended theorem applied to the three-element heap
[3, 2, 1] under the default comparator, with the heap-property hypothesis
discharged concretely. -/
theorem sort_heap_sorts_witness :
    List.Pairwise (fun a b => intLt b a = false) (listOf (sort_heap intLt f321 3) 3) ∧
    List.Perm (listOf (sort_heap intLt f321 3) 3) (listOf f321 3) :=
  (sort_heap_sorts intLt intLt_asymm intLt_split f321 3).1
    (by
      rw [← is_heap_iff_IsHeap]
      simp [is_heap, is_heapLoop, intLt, f321])

/-- C7, confirmed: one step of __heapify compares the left child first and
the right child second; the right child is chosen over the current best
(parent or left child) only when it compares strictly greater per comp, so
on ties the earlier-examined candidate keeps its position, and a swap
happens only when the selected index differs from the parent. -/
theorem heapify_step_tie_break {α : Type} (comp : α → α → Bool)
    (f : Nat → α) (len p : Nat) :
    (chooseLargest comp f len p =
      if 2 * p + 2 < len && comp
          (f (if 2 * p + 1 < len && comp (f p) (f (2 * p + 1)) then 2 * p + 1 else p))
          (f (2 * p + 2)) then 2 * p + 2
        else if 2 * p + 1 < len && comp (f p) (f (2 * p + 1)) then 2 * p + 1 else p) ∧
    (comp (f p) (f (2 * p + 1)) = false →
      (if 2 * p + 1 < len && comp (f p) (f (2 * p + 1)) then 2 * p + 1 else p) = p) ∧
    (comp (f (if 2 * p + 1 < len && comp (f p) (f (2 * p + 1)) then 2 * p + 1 else p))
        (f (2 * p + 2)) = false →
      chooseLargest comp f len p =
        (if 2 * p + 1 < len && comp (f p) (f (2 * p + 1)) then 2 * p + 1 else p)) ∧
    (chooseLargest comp f len p ≠ p →
      heapifyLoop comp len f p =
        heapifyLoop comp len (swapF f p (chooseLargest comp f len p))
          (chooseLargest comp f len p)) ∧
    (chooseLargest comp f len p = p → heapifyLoop comp len f p = f) := by
  refine ⟨rfl, ?_, ?_, ?_, ?_⟩
  · intro h
    simp [h]
  · intro h
    simp only [chooseLargest]
    rw [h]
    simp
  · intro h
    exact heapifyLoop_eq_swap h
  · intro h
    exact heapifyLoop_eq_stop h

/-- C7, witness: the tie-break theorem applied to the range [5, 7, 7] under
the default comparator, where the left child beats the parent and the right
child ties the left, so the left child keeps its position. -/
theorem heapify_step_tie_break_witness :
    (chooseLargest intLt f577 3 0 =
      if 2 * 0 + 2 < 3 && intLt
          (f577 (if 2 * 0 + 1 < 3 && intLt (f577 0) (f577 (2 * 0 + 1)) then 2 * 0 + 1 else 0))
          (f577 (2 * 0 + 2)) then 2 * 0 + 2
        else if 2 * 0 + 1 < 3 && intLt (f577 0) (f577 (2 * 0 + 1)) then 2 * 0 + 1 else 0) ∧
    (intLt (f577 0) (f577 (2 * 0 + 1)) = false →
      (if 2 * 0 + 1 < 3 && intLt (f577 0) (f577 (2 * 0 + 1)) then 2 * 0 + 1 else 0) = 0) ∧
    (intLt (f577 (if 2 * 0 + 1 < 3 && intLt (f577 0) (f577 (2 * 0 + 1)) then 2 * 0 + 1 else 0))
        (f577 (2 * 0 + 2)) = false →
      chooseLargest intLt f577 3 0 =
        (if 2 * 0 + 1 < 3 && intLt (f577 0) (f577 (2 * 0 + 1)) then 2 * 0 + 1 else 0)) ∧
    (chooseLargest intLt f577 3 0 ≠ 0 →
      heapifyLoop intLt 3 f577 0 =
        heapifyLoop intLt 3 (swapF f577 0 (chooseLargest intLt f577 3 0))
          (chooseLargest intLt f577 3 0)) ∧
    (chooseLargest intLt f577 3 0 = 0 → heapifyLoop intLt 3 f577 0 = f577) :=
  heapify_step_tie_break intLt f577 3 0

/-- C2, code bug: pop_back on a one-element vector calls allocator destroy
on slot m_size = 1 (already unconstructed) instead of slot m_size - 1 = 0,
so after the call the size is 0 but slot 0 still holds a constructed
object, violating the invariant that slots in [size, capacity) are never
constructed; the element the documentation says is deleted was never
destroyed. -/
theorem pop_back_leaves_last_slot_constructed :
    ((Vec.mk_default.push_back (5 : Int)).pop_back).toOption.map
      (fun v => (v.m_size, v.p_elem 0, v.p_elem 1)) = some (0, some 5, none) ∧
    (Vec.mk_default.push_back (5 : Int)).p_elem 1 = none := by
  constructor
  · simp [Vec.pop_back, Vec.push_back, Vec.mk_default, Vec.realloc, setF, DEFAULT_CAPACITY]
    exact ⟨_, rfl, rfl, by simp [setF], by simp [setF]⟩
  · simp [Vec.push_back, Vec.mk_default, Vec.realloc, setF, DEFAULT_CAPACITY]

/-- C3, code bug: the single-position erase validates the position with
pos < cbegin() || pos > cbegin() (instead of cend()), so it throws
std::out_of_range for position 1 of the three-element vector [1, 2, 3] even
though that position lies inside [begin, end); erasing at position 0, the
only accepted position, performs the documented left shift. -/
theorem erase_rejects_interior_position :
    (Vec.of_list ([1, 2, 3] : List Int)).erase 1 = .error .out_of_range ∧
    ((Vec.of_list ([1, 2, 3] : List Int)).erase 0).toOption.map
      (fun v => (v.m_size, v.p_elem 0, v.p_elem 1, v.p_elem 2)) =
      some (2, some 2, some 3, none) := by
  constructor
  · rfl
  · simp [Vec.erase, Vec.of_list, eraseShiftLoop, setF]
    exact ⟨_, rfl, rfl, by simp [setF], by simp [setF], by simp [setF]⟩

/-- C4, counterexample: front and back on an empty vector throw
std::out_of_range, the very error type of checked access (at), so the
empty-container error of front/back is not distinguishable from the
out-of-range error; only pop_back throws the distinct std::length_error. -/
theorem front_back_error_matches_checked_access :
    (Vec.mk_default : Vec Int).front = .error .out_of_range ∧
    (Vec.mk_default : Vec Int).back = .error .out_of_range ∧
    (Vec.mk_default : Vec Int).at_pos 0 = .error .out_of_range :=
  ⟨rfl, rfl, rfl⟩

/-- C4, amended: on an empty vector pop_back signals std::length_error,
which is distinguishable from out-of-range, while front and back signal
std::out_of_range, the same condition as checked access; on a non-empty
vector pop_back removes the last element from the live range, decrementing
size by one and preserving the elements below, and it is never a silent
no-op on an empty vector. -/
theorem empty_access_error_spec {α : Type} (s : Vec α) :
    (s.m_size = 0 →
      s.front = .error .out_of_range ∧
      s.back = .error .out_of_range ∧
      s.pop_back = .error .length_error) ∧
    VecError.length_error ≠ VecError.out_of_range ∧
    (0 < s.m_size →
      (s.pop_back).toOption.map Vec.m_size = some (s.m_size - 1) ∧
      ∀ v, s.pop_back = .ok v → ∀ i, i < s.m_size - 1 → v.p_elem i = s.p_elem i) := by
  refine ⟨?_, by decide, ?_⟩
  · intro h
    refine ⟨?_, ?_, ?_⟩
    · rw [Vec.front, if_pos h]
    · rw [Vec.back, if_pos h]
    · rw [Vec.pop_back, if_neg (by omega)]
  · intro h
    have hok : s.pop_back = .ok
        { m_size := s.m_size - 1, m_capacity := s.m_capacity,
          p_elem := setF s.p_elem s.m_size none } := by
      rw [Vec.pop_back, if_pos h]
    refine ⟨by rw [hok]; rfl, ?_⟩
    intro v hv i hi
    rw [hok] at hv
    cases hv
    exact setF_other s.p_elem s.m_size none (by omega)

/-- C4, witness: the amended theorem applied to the default-constructed
empty vector, whose emptiness activates the error clauses. -/
theorem empty_access_error_spec_witness :
    ((Vec.mk_default : Vec Int).m_size = 0 →
      (Vec.mk_default : Vec Int).front = .error .out_of_range ∧
      (Vec.mk_default : Vec Int).back = .error .out_of_range ∧
      (Vec.mk_default : Vec Int).pop_back = .error .length_error) ∧
    VecError.length_error ≠ VecError.out_of_range ∧
    (0 < (Vec.mk_default : Vec Int).m_size →
      ((Vec.mk_default : Vec Int).pop_back).toOption.map Vec.m_size =
        some ((Vec.mk_default : Vec Int).m_size - 1) ∧
      ∀ v, (Vec.mk_default : Vec Int).pop_back = .ok v →
        ∀ i, i < (Vec.mk_default : Vec Int).m_size - 1 →
          v.p_elem i = (Vec.mk_default : Vec Int).p_elem i) :=
  empty_access_error_spec Vec.mk_default

/-- C8, confirmed: push_back below capacity leaves the capacity unchanged;
push_back at size == capacity multiplies the capacity by REALLOC_RATE = 2
(or sets it to 1 from 0); the capacity never decreases across push_back;
and the default-constructed vector has capacity DEFAULT_CAPACITY = 10,
which grows to 20 on the eleventh push_back. -/
theorem push_back_capacity_spec {α : Type} (s : Vec α) (v : α) :
    (s.m_size < s.m_capacity → (s.push_back v).m_capacity = s.m_capacity) ∧
    (s.m_size = s.m_capacity → (s.push_back v).m_capacity =
      if s.m_capacity = 0 then 1 else REALLOC_RATE * s.m_capacity) ∧
    s.m_capacity ≤ (s.push_back v).m_capacity ∧
    (Vec.mk_default : Vec Int).m_capacity = 10 ∧
    (((List.replicate 10 (0 : Int)).foldl Vec.push_back Vec.mk_default).m_capacity = 10 ∧
      ((List.replicate 10 (0 : Int)).foldl Vec.push_back
        Vec.mk_default).m_size = 10) ∧
    (((List.replicate 10 (0 : Int)).foldl Vec.push_back
      Vec.mk_default).push_back 0).m_capacity = 20 := by
  refine ⟨?_, ?_, ?_, by decide, ⟨by decide, by decide⟩, by decide⟩
  · intro h
    rw [Vec.push_back]
    simp only [if_neg (by omega : ¬ s.m_size ≥ s.m_capacity)]
  · intro h
    rw [Vec.push_back]
    simp only [if_pos (by omega : s.m_size ≥ s.m_capacity)]
    rfl
  · rw [Vec.push_back]
    by_cases hge : s.m_size ≥ s.m_capacity
    · simp only [if_pos hge]
      show s.m_capacity ≤ (if s.m_capacity = 0 then 1 else REALLOC_RATE * s.m_capacity)
      rw [REALLOC_RATE]
      by_cases h0 : s.m_capacity = 0
      · rw [if_pos h0]; omega
      · rw [if_neg h0]; omega
    · simp only [if_neg hge]
      exact Nat.le_refl _

/-- C8, witness: the capacity theorem applied to the default-constructed
vector, which is below capacity, so the first clause applies with
capacity 10 unchanged. -/
theorem push_back_capacity_spec_witness :
    ((Vec.mk_default : Vec Int).m_size < (Vec.mk_default : Vec Int).m_capacity →
      ((Vec.mk_default : Vec Int).push_back 0).m_capacity =
        (Vec.mk_default : Vec Int).m_capacity) ∧
    ((Vec.mk_default : Vec Int).m_size = (Vec.mk_default : Vec Int).m_capacity →
      ((Vec.mk_default : Vec Int).push_back 0).m_capacity =
        if (Vec.mk_default : Vec Int).m_capacity = 0 then 1
        else REALLOC_RATE * (Vec.mk_default : Vec Int).m_capacity) ∧
    (Vec.mk_default : Vec Int).m_capacity ≤
      ((Vec.mk_default : Vec Int).push_back 0).m_capacity ∧
    (Vec.mk_default : Vec Int).m_capacity = 10 ∧
    (((List.replicate 10 (0 : Int)).foldl Vec.push_back Vec.mk_default).m_capacity = 10 ∧
      ((List.replicate 10 (0 : Int)).foldl Vec.push_back
        Vec.mk_default).m_size = 10) ∧
    (((List.replicate 10 (0 : Int)).foldl Vec.push_back
      Vec.mk_default).push_back 0).m_capacity = 20 :=
  push_back_capacity_spec Vec.mk_default 0

/-- C9, confirmed: pushing [74, -42, 48, -44, 14] onto an empty
default-constructed vector, then make_heap with the default comparator,
yields a range with is_heap true whose element 0 is 74; five rounds of
pop_heap followed by pop_back (reading each popped value from the last slot
after pop_heap) produce [74, 48, 14, -42, -44]. -/
theorem end_to_end_scenario :
    vec9.m_size = 5 ∧
    is_heap intLt h9 5 = true ∧
    h9 0 = 74 ∧
    popAllLoop intLt h9 5 = [74, 48, 14, -42, -44] := by
  refine ⟨by decide, ?_, ?_, ?_⟩ <;>
  simp [h9, f9, vec9, Vec.contents, Vec.mk_default, Vec.realloc, Vec.push_back, setF,
    DEFAULT_CAPACITY, REALLOC_RATE, make_heap, make_heapLoop, __heapify, heapifyLoop,
    chooseLargest, swapF, intLt, is_heap, is_heapLoop, popAllLoop, pop_heap]

/-- C10, counterexample: constructing a priority_queue from the container
[0, 0] with the everywhere-true comparison predicate calls make_heap, yet
is_heap is false on the resulting underlying container, so the heap
invariant does not hold for an arbitrary comparator. -/
theorem priority_queue_arbitrary_comp_fails :
    is_heap compTrue (priority_queue_ctor compTrue f02 2).1
      (priority_queue_ctor compTrue f02 2).2 = false := by
  simp [priority_queue_ctor, make_heap, make_heapLoop, __heapify, heapifyLoop,
    chooseLargest, swapF, compTrue, f02, is_heap, is_heapLoop]

/-- C10, amended: for a stored comparator satisfying the strict-weak-order
laws, the priority_queue keeps its underlying container a valid heap: the
container/range constructors establish IsHeap via make_heap, and push
(and emplace, which performs the same contents transformation) and pop
preserve it. -/
theorem priority_queue_heap_invariant {α : Type} (comp : α → α → Bool)
    (ha : Asymm comp) (hs : CompSplit comp) :
    (∀ (f : Nat → α) (len : Nat),
      IsHeap comp (priority_queue_ctor comp f len).1 (priority_queue_ctor comp f len).2) ∧
    (∀ (s : (Nat → α) × Nat) (v : α), IsHeap comp s.1 s.2 →
      IsHeap comp (priority_queue_push comp s v).1 (priority_queue_push comp s v).2) ∧
    (∀ (s : (Nat → α) × Nat) (t : (Nat → α) × Nat), IsHeap comp s.1 s.2 →
      priority_queue_pop comp s = .ok t → IsHeap comp t.1 t.2) := by
  refine ⟨?_, ?_, ?_⟩
  · intro f len
    exact make_heap_IsHeap ha hs f len
  · intro s v hheap
    apply push_heap_IsHeap ha hs
    have := setF_prefix_isHeap hheap v
    simpa using this
  · intro s t hheap hpop
    rw [priority_queue_pop] at hpop
    by_cases h0 : s.2 > 0
    · rw [if_pos h0] at hpop
      cases hpop
      exact pop_heap_IsHeap ha hs s.1 s.2 hheap
    · rw [if_neg h0] at hpop
      exact Except.noConfusion hpop

/-- C10, witness: the invariant theorem applied to the default comparator,
establishing the heap property of the queue built from the end-to-end
container contents. -/
theorem priority_queue_heap_invariant_witness :
    IsHeap intLt (priority_queue_ctor intLt f9 5).1 (priority_queue_ctor intLt f9 5).2 :=
  (priority_queue_heap_invariant intLt intLt_asymm intLt_split).1 f9 5

end mystl
